import Mathlib

/-!
Verification development for the recommiter history-rewrite tool.

The definitions below are a shallow embedding of the program in
src/index.ts.  Machine numbers are modelled as Int/Nat (JavaScript
numbers are exact integers in every range exercised here, except for
the deliberate 32-bit `|0` truncation, which is modelled explicitly by
toInt32).  Promise rejections and thrown exceptions are modelled with
Except; a rejection that no try/catch intercepts propagates out of the
enclosing computation exactly as an Except.error propagates out of the
fold below.  Calls into the external nodegit / date-fns libraries are
modelled at their documented boundary behaviour (see the comments at
each definition).  Strings manipulated character by character (commit
messages, file paths) are modelled as List Char; identifiers that are
only compared for equality stay String.
-/

/-- Author role, from config/authors.json entries (external data). -/
inductive Role where
  | backend
  | frontend
deriving DecidableEq

/-- One entry of the author pool: name, email and role. -/
structure AuthorEntry where
  name : String
  email : String
  role : Role
deriving DecidableEq

/-- FRONTEND_LABEL constant of the source (the string literal has these
six characters). -/
def FRONTEND_LABEL : List Char := ("client").toList

/-- BACKEND_LABEL constant of the source. -/
def BACKEND_LABEL : List Char := ("server").toList

/-- Project-marker token replaced in rewritten commit messages. -/
def MARKER : List Char := ("MAKHROVYI").toList

/-- Replacement token for the project marker. -/
def REPLACEMENT : List Char := ("AnotherOneProject").toList

/-- Source: const tail = (arr) => arr[arr.length - 1].  Indexing one
past the last element of a JavaScript array yields undefined, so the
function returns the last element, or undefined (none) on the empty
array; List.getLast? is exactly that. -/
def tail {α : Type} (arr : List α) : Option α := arr.getLast?

/-- Source: const randomSelect = (arr) => arr[(Math.random() * arr.length) | 0].
Math.random() yields r with 0 <= r < 1; the draw r is made a parameter.
For r >= 0 the |0 truncation of r * length is its floor.  On an empty
array the index is 0 and the access yields undefined (none). -/
def randomSelect {α : Type} (arr : List α) (r : ℚ) : Option α :=
  arr[(Int.floor (r * (arr.length : ℚ))).toNat]?

/-- Source: getRandomAuthor(role?).  With no role it draws from the whole
pool, otherwise from the role-filtered pool.  The pool (the authors.json
import) is a parameter. -/
def getRandomAuthor (pool : List AuthorEntry) (role : Option Role) (r : ℚ) :
    Option AuthorEntry :=
  match role with
  | none => randomSelect pool r
  | some ro => randomSelect (pool.filter (fun a => decide (a.role = ro))) r

/-- JavaScript String.prototype.includes(pat): pat occurs somewhere in
the string (substring containment). -/
def hasOccurrence (pat : List Char) : List Char → Bool
  | [] => pat.isEmpty
  | a :: s => pat.isPrefixOf (a :: s) || hasOccurrence pat s

/-- Count of changed-file paths containing FRONTEND_LABEL
(determineAuthorForCommit, frontendChangesAmount local). -/
def frontendChangesAmount (files : List (List Char)) : Nat :=
  (files.filter (fun p => hasOccurrence FRONTEND_LABEL p)).length

/-- Count of changed-file paths containing BACKEND_LABEL
(determineAuthorForCommit, backendChangesAmount local). -/
def backendChangesAmount (files : List (List Char)) : Nat :=
  (files.filter (fun p => hasOccurrence BACKEND_LABEL p)).length

/-- Role-inference and selection part of determineAuthorForCommit,
operating on the changed-file list returned by getCommitFiles. -/
def determineAuthorFromFiles (pool : List AuthorEntry) (r : ℚ)
    (files : List (List Char)) : Option AuthorEntry :=
  if backendChangesAmount files > frontendChangesAmount files then
    getRandomAuthor pool (some Role.backend) r
  else if frontendChangesAmount files > backendChangesAmount files then
    getRandomAuthor pool (some Role.frontend) r
  else
    getRandomAuthor pool none r

/-!
Calendar model.  date-fns fromUnixTime(t) is new Date(t * 1000);
addMonths(d, 6) adds six calendar months keeping the time of day and
clamping the day of month to the length of the target month (if the
original day of month is at least the length of the target month the
result is the last day of the target month).  The process is assumed to
run with TZ=UTC, so Date month arithmetic is proleptic-Gregorian UTC
arithmetic; it is modelled with the standard civil-from-days /
days-from-civil conversions.
-/

/-- Gregorian leap-year rule. -/
def isLeap (y : Int) : Bool :=
  (decide (Int.emod y 4 = 0) && !(decide (Int.emod y 100 = 0))) ||
    decide (Int.emod y 400 = 0)

/-- Number of days in month m (1..12) of year y. -/
def daysInMonth (y : Int) (m : Nat) : Nat :=
  match m with
  | 1 => 31
  | 2 => if isLeap y then 29 else 28
  | 3 => 31
  | 4 => 30
  | 5 => 31
  | 6 => 30
  | 7 => 31
  | 8 => 31
  | 9 => 30
  | 10 => 31
  | 11 => 30
  | _ => 31

/-- Civil date (year, month 1..12, day 1..31) of a day count from the
Unix epoch (proleptic Gregorian, Hinnant's algorithm). -/
def civilFromDays (z0 : Int) : Int × Nat × Nat :=
  let z := z0 + 719468
  let era := Int.fdiv z 146097
  let doe := (z - era * 146097).toNat
  let yoe := (doe - doe / 1460 + doe / 36524 - doe / 146096) / 365
  let y := (yoe : Int) + era * 400
  let doy := doe - (365 * yoe + yoe / 4 - yoe / 100)
  let mp := (5 * doy + 2) / 153
  let d := doy - (153 * mp + 2) / 5 + 1
  let m := if mp < 10 then mp + 3 else mp - 9
  (if m ≤ 2 then y + 1 else y, m, d)

/-- Day count from the Unix epoch of a civil date (proleptic Gregorian,
Hinnant's algorithm). -/
def daysFromCivil (y0 : Int) (m d : Nat) : Int :=
  let y := if m ≤ 2 then y0 - 1 else y0
  let era := Int.fdiv y 400
  let yoe := (y - era * 400).toNat
  let mp := if 2 < m then m - 3 else m + 9
  let doy := (153 * mp + 2) / 5 + d - 1
  let doe := yoe * 365 + yoe / 4 - yoe / 100 + doy
  era * 146097 + (doe : Int) - 719468

/-- Unix seconds of the instant n calendar months after Unix instant t:
the embedding of date-fns addMonths on a Date holding t (time of day
preserved, day of month clamped to the target month's length). -/
def addMonthsUnix (n : Nat) (t : Int) : Int :=
  let z := Int.fdiv t 86400
  let sod := Int.emod t 86400
  let ymd := civilFromDays z
  let mo := ymd.2.1 - 1 + n
  let y2 := ymd.1 + (mo / 12 : Nat)
  let m2 := mo % 12 + 1
  let d2 := min ymd.2.2 (daysInMonth y2 m2)
  daysFromCivil y2 m2 d2 * 86400 + sod

/-- JavaScript ToInt32 (the |0 operator) on an integer value: reduce
modulo 2^32 into the signed range. -/
def toInt32 (x : Int) : Int :=
  (x + 2147483648) % 4294967296 - 2147483648

/-- Source: operateTime(t) = (addMonths(fromUnixTime(t), 6).valueOf() / 1000) | 0.
valueOf() is the shifted instant in milliseconds; the division by 1000
is exact because addMonths preserves the milliseconds of the second, so
only the |0 truncation remains. -/
def operateTime (t : Int) : Int := toInt32 (addMonthsUnix 6 t)

/-- The authorTime / commiterTime computation of run: operateTime when
changeTime is set, the original instant otherwise. -/
def computedTime (changeTime : Bool) (t : Int) : Int :=
  if changeTime then operateTime t else t

/-- JavaScript String.prototype.replace with a plain-string pattern:
only the first occurrence of pat is replaced by rep. -/
def replaceFirst (pat rep : List Char) : List Char → List Char
  | [] => if pat.isPrefixOf ([] : List Char) then rep ++ ([] : List Char).drop pat.length else []
  | a :: s =>
    if pat.isPrefixOf (a :: s) then rep ++ (a :: s).drop pat.length
    else a :: replaceFirst pat rep s

/-- Message transformation applied to each re-created (non-seed) commit:
c.message().replace(MAKHROVYI, AnotherOneProject). -/
def transformMessage (m : List Char) : List Char :=
  replaceFirst MARKER REPLACEMENT m

/-- A commit signature: identity, Unix instant and UTC offset
(Git.Signature with its when() time and offset). -/
structure Sig where
  name : String
  email : String
  time : Int
  offset : Int
deriving DecidableEq

/-- An original commit as the engine reads it.  diffFiles models the
outcome of getCommitFiles (the new-side paths of the first diff's
patches): none when getDiff rejects (diff unavailable). -/
structure Commit where
  id : String
  message : List Char
  author : Sig
  committer : Sig
  diffFiles : Option (List (List Char))
  tree : Nat
deriving DecidableEq

/-- Failures that escape a chain step uncaught. -/
inductive ChainErr where
  | diffUnavailable (id : String)
  | selectionUndefined (id : String)
deriving DecidableEq

/-- A commit object created by the chain step (repo.createCommit):
fresh id, single parent, tree, transformed message, chosen
signatures, plus the id of the original commit it rewrites. -/
structure Created where
  id : String
  parentId : String
  tree : Nat
  message : List Char
  author : Sig
  committer : Sig
  origId : String
deriving DecidableEq

/-- Run-wide parameters of the chain fold: the author pool, the
per-commit Math.random() draw, the two option flags, the id of the
amended seed commit (the branch tip HEAD points at until the first
chain success), the fresh-object-id generator of the store, and
whether the store operations of the try block (parent lookup, getTree,
createCommit) succeed for a given commit. -/
structure ChainParams where
  pool : List AuthorEntry
  rand : Commit → ℚ
  changeTime : Bool
  keepAuthor : Bool
  seedId : String
  newIdOf : String → String
  createOk : Commit → Bool

/-- Source getCommitFiles: resolves to the changed-file list or rejects
with the diff error. -/
def getCommitFiles (c : Commit) : Except ChainErr (List (List Char)) :=
  match c.diffFiles with
  | none => Except.error (ChainErr.diffUnavailable c.id)
  | some fs => Except.ok fs

/-- Source determineAuthorForCommit: awaits getCommitFiles, then runs
role inference and selection.  A rejection of getCommitFiles
propagates. -/
def determineAuthorForCommit (pool : List AuthorEntry) (r : ℚ) (c : Commit) :
    Except ChainErr (Option AuthorEntry) :=
  Except.map (determineAuthorFromFiles pool r) (getCommitFiles c)

/-- Signature construction shared by the seed step (first commit) and
every chain step: with keepAuthor the original signatures are reused
verbatim; otherwise both signatures take the chosen identity's name and
email, the computed instant, and the original signature's offset.
Accessing author.name on an undefined selection throws, hence none. -/
def makeSignatures (keepAuthor changeTime : Bool) (author : Option AuthorEntry)
    (c : Commit) : Option (Sig × Sig) :=
  if keepAuthor then some (c.author, c.committer)
  else
    author.map (fun a =>
      ({ name := a.name, email := a.email,
         time := computedTime changeTime c.author.time,
         offset := c.author.offset },
       { name := a.name, email := a.email,
         time := computedTime changeTime c.committer.time,
         offset := c.committer.offset }))

/-- Parent chosen for the next created commit: the last accumulated
rewrite's new commit (tail of the record list), or the branch tip left
by the seed step when nothing has been accumulated yet (the code reads
HEAD there, and HEAD still points at the amended seed exactly when no
chain createCommit has succeeded). -/
def lastId (seedId : String) (acc : List Created) : String :=
  match tail acc with
  | some last => last.id
  | none => seedId

/-- One iteration of the commits.reduce callback.  Everything before the
try block (diff, author selection, signature construction) propagates
its failure out of the step; inside the try block a store failure is
caught and the accumulator is returned unchanged. -/
def chainStep (P : ChainParams) (acc : List Created) (c : Commit) :
    Except ChainErr (List Created) :=
  match determineAuthorForCommit P.pool (P.rand c) c with
  | Except.error e => Except.error e
  | Except.ok author =>
    match makeSignatures P.keepAuthor P.changeTime author c with
    | none => Except.error (ChainErr.selectionUndefined c.id)
    | some sigs =>
      if P.createOk c then
        Except.ok (acc ++ [{ id := P.newIdOf c.id,
                             parentId := lastId P.seedId acc,
                             tree := c.tree,
                             message := transformMessage c.message,
                             author := sigs.1,
                             committer := sigs.2,
                             origId := c.id }])
      else Except.ok acc

/-- The commits.reduce fold over the non-seed commits, oldest first,
starting from the empty record list.  An uncaught rejection of one
callback is re-thrown by the await of every later callback, so it
short-circuits the whole fold. -/
def runChain (P : ChainParams) (acc : List Created) : List Commit → Except ChainErr (List Created)
  | [] => Except.ok acc
  | c :: cs =>
    match chainStep P acc c with
    | Except.error e => Except.error e
    | Except.ok acc2 => runChain P acc2 cs

/-- A chain step reaches its try block (no uncaught failure before it):
the diff is available and, unless keepAuthor short-circuits the
signature construction, the author selection is defined. -/
def preludeOk (P : ChainParams) (c : Commit) : Bool :=
  match c.diffFiles with
  | none => false
  | some fs => P.keepAuthor || (determineAuthorFromFiles P.pool (P.rand c) fs).isSome

/-- The created records form one linear chain hanging from p: the first
record's parent is p and each subsequent record's parent is the
previous record's new commit id. -/
def linkedFrom (p : String) : List Created → Bool
  | [] => true
  | r :: rs => decide (r.parentId = p) && linkedFrom r.id rs

/-!
Branch materialization model (run, branch-creation section).  The
branch store is the set of named pointers plus the checked-out branch
(HEAD).  nodegit createBranch is called with force = true: libgit2
overwrites an existing pointer under force and fails only when the
existing pointer is the currently checked-out branch.  The catch
handler deletes the raw reference (which is permitted even for the
checked-out branch) and retries the creation once.  checkoutBranch
switches HEAD to the new branch.
-/

/-- Named branch pointers (name, target commit) and the checked-out
branch name. -/
structure RepoState where
  branches : List (String × Nat)
  head : Option String
deriving DecidableEq

/-- Whether a pointer with the given name exists. -/
def branchExists (s : RepoState) (n : String) : Bool :=
  s.branches.any (fun p => decide (p.1 = n))

/-- repo.createBranch(n, target, true): under force the only failure is
overwriting the checked-out branch; otherwise the pointer is
(re)written. -/
def createBranchForce (s : RepoState) (n : String) (t : Nat) : Option RepoState :=
  if branchExists s n && decide (s.head = some n) then none
  else some { s with branches := (n, t) :: s.branches.filter (fun p => !(decide (p.1 = n))) }

/-- Raw reference deletion used in the catch handler. -/
def deleteBranchRef (s : RepoState) (n : String) : RepoState :=
  { s with branches := s.branches.filter (fun p => !(decide (p.1 = n))) }

/-- Destination branch name. -/
def newBranchNameOf (b : String) : String := "recommited/" ++ b

/-- Branch materialization of run: attempt creation; on failure delete
the stale reference and retry exactly once; then check the branch out. -/
def materializeBranch (s : RepoState) (b : String) (t : Nat) : Option RepoState :=
  match createBranchForce s (newBranchNameOf b) t with
  | some s1 => some { s1 with head := some (newBranchNameOf b) }
  | none =>
    match createBranchForce (deleteBranchRef s (newBranchNameOf b)) (newBranchNameOf b) t with
    | some s1 => some { s1 with head := some (newBranchNameOf b) }
    | none => none

/-- Reference resolution of the repository: refs maps full branch names
to commit ids; repo.getBranch rejects (none) when the name does not
resolve. -/
def resolveRef (refs : List (String × String)) (name : String) : Option String :=
  (refs.find? (fun p => decide (p.1 = name))).map (fun p => p.2)

/-- The branch-resolution prologue of run, in source order: first the
unguarded console.log(await repo.getBranch(branchName)...) whose
rejection aborts the run; then the guarded resolution of branchName;
then, still null, the guarded resolution of origin/branchName; a run
that ends with no branch returns (ok none) without touching the
repository. -/
def startRun (refs : List (String × String)) (branchName : String) :
    Except Unit (Option String) :=
  match resolveRef refs branchName with
  | none => Except.error ()
  | some _ =>
    match resolveRef refs branchName with
    | some b => Except.ok (some b)
    | none =>
      match resolveRef refs ("origin/" ++ branchName) with
      | some b => Except.ok (some b)
      | none => Except.ok none

/-!
Concrete fixtures used to instantiate the general theorems below.
-/

/-- A sample original signature. -/
def wSig : Sig := { name := "Orig", email := "orig@example.com", time := 1000, offset := 120 }

/-- Chain fixture: first non-seed commit, diff available. -/
def w1A : Commit :=
  { id := "a", message := ("msg a").toList, author := wSig, committer := wSig,
    diffFiles := some [("server/app.ts").toList], tree := 1 }

/-- Chain fixture: the commit whose creation fails. -/
def w1B : Commit :=
  { id := "b", message := ("msg b").toList, author := wSig, committer := wSig,
    diffFiles := some [("client/ui.tsx").toList], tree := 2 }

/-- Chain fixture: last commit, diff available. -/
def w1C : Commit :=
  { id := "c", message := ("msg c").toList, author := wSig, committer := wSig,
    diffFiles := some [("README.md").toList], tree := 3 }

/-- Chain fixture parameters: keepAuthor run where the store fails
exactly on commit b. -/
def w1P : ChainParams :=
  { pool := [], rand := fun _ => 0, changeTime := false, keepAuthor := true,
    seedId := "seed", newIdOf := fun i => "new-" ++ i,
    createOk := fun c => !(decide (c.id = "b")) }

/-- Diff-failure fixture: a commit whose getDiff rejects. -/
def w2Bad : Commit :=
  { id := "bad", message := ("msg bad").toList, author := wSig, committer := wSig,
    diffFiles := none, tree := 4 }

/-- Diff-failure fixture: a healthy commit after the failing one. -/
def w2Good : Commit :=
  { id := "good", message := ("msg good").toList, author := wSig, committer := wSig,
    diffFiles := some [], tree := 5 }

/-- Diff-failure fixture parameters: the store never fails. -/
def w2P : ChainParams :=
  { pool := [], rand := fun _ => 0, changeTime := false, keepAuthor := true,
    seedId := "seed", newIdOf := fun i => "new-" ++ i, createOk := fun _ => true }

/-- Time-shift fixture: a commit whose author and committer instants are
the spec's example instant 2023-01-15T10:00:00Z. -/
def w4C : Commit :=
  { id := "t", message := ("msg t").toList,
    author := { name := "Orig", email := "orig@example.com", time := 1673776800, offset := 0 },
    committer := { name := "Orig", email := "orig@example.com", time := 1673776800, offset := 0 },
    diffFiles := some [], tree := 6 }

/-- keepAuthor fixture commit. -/
def w5A : Commit :=
  { id := "k", message := ("MAKHROVYI work").toList, author := wSig, committer := wSig,
    diffFiles := some [("server/db.ts").toList], tree := 7 }

/-- keepAuthor fixture parameters: keepAuthor together with changeTime,
store succeeding. -/
def w5P : ChainParams :=
  { pool := [⟨"P", "p@example.com", Role.backend⟩], rand := fun _ => 0,
    changeTime := true, keepAuthor := true, seedId := "seed5",
    newIdOf := fun i => "new5-" ++ i, createOk := fun _ => true }

/-- Role-majority fixture pool with one author of each role. -/
def w6Pool : List AuthorEntry :=
  [⟨"Back", "back@example.com", Role.backend⟩,
   ⟨"Front", "front@example.com", Role.frontend⟩]

/-- Role-majority fixture: three backend-labelled paths, one
frontend-labelled path. -/
def w6Files : List (List Char) :=
  [("server/a.ts").toList, ("server/b.ts").toList, ("server/c.ts").toList,
   ("client/d.tsx").toList]

/-!
Lemmas about first-occurrence replacement.
-/

/-- When the pattern is a prefix of the string, replaceFirst rewrites it
at position zero. -/
theorem replaceFirst_of_isPrefixOf (pat rep s : List Char) (h : pat.isPrefixOf s = true) :
    replaceFirst pat rep s = rep ++ s.drop pat.length := by
  cases s <;> simp [replaceFirst, h]

/-- A string without any occurrence of the pattern is unchanged. -/
theorem replaceFirst_of_no_occurrence (pat rep : List Char) :
    ∀ s, hasOccurrence pat s = false → replaceFirst pat rep s = s := by
  intro s
  induction s with
  | nil =>
    intro h
    cases pat with
    | nil => simp [hasOccurrence] at h
    | cons p pt => simp [replaceFirst, List.isPrefixOf]
  | cons a t ih =>
    intro h
    simp only [hasOccurrence, Bool.or_eq_false_iff] at h
    simp [replaceFirst, h.1, ih h.2]

/-- When the pattern's first occurrence starts right after pre, the
replacement rewrites exactly that occurrence. -/
theorem replaceFirst_first_occurrence (pat rep : List Char) :
    ∀ pre suf : List Char,
      (∀ i, i < pre.length → pat.isPrefixOf ((pre ++ pat ++ suf).drop i) = false) →
      replaceFirst pat rep (pre ++ pat ++ suf) = pre ++ rep ++ suf := by
  intro pre
  induction pre with
  | nil =>
    intro suf _
    have hp : pat.isPrefixOf (pat ++ suf) = true := by
      rw [List.isPrefixOf_iff_prefix]
      exact List.prefix_append pat suf
    simp only [List.nil_append]
    rw [replaceFirst_of_isPrefixOf pat rep _ hp, List.drop_left]
  | cons a pre ih =>
    intro suf h
    have h0 : pat.isPrefixOf (a :: (pre ++ pat ++ suf)) = false := by
      have := h 0 (by simp)
      simpa using this
    have h0' : ¬ (pat <+: a :: (pre ++ (pat ++ suf))) := by
      rw [← List.append_assoc, ← List.isPrefixOf_iff_prefix, h0]
      exact Bool.false_ne_true
    have hrest : ∀ i, i < pre.length →
        pat.isPrefixOf ((pre ++ pat ++ suf).drop i) = false := by
      intro i hi
      have := h (i + 1) (by simpa using Nat.succ_lt_succ hi)
      simpa [List.drop_succ_cons] using this
    simp only [List.cons_append]
    simp [replaceFirst, h0']
    simpa [List.append_assoc] using ih suf hrest

/-- C3 counterexample: in a message holding the project marker twice,
the rewritten message still contains the marker — only the first
occurrence was replaced, so not every occurrence is replaced. -/
theorem message_substitution_cex :
    transformMessage (("MAKHROVYI MAKHROVYI").toList)
      = ("AnotherOneProject MAKHROVYI").toList
    ∧ hasOccurrence MARKER (transformMessage (("MAKHROVYI MAKHROVYI").toList)) = true :=
  ⟨by decide, by decide⟩

/-- C3 (amended): the rewritten message replaces the first occurrence of
the project-marker token with the replacement token, leaving everything
before and after that occurrence unchanged; a message without the
marker is unchanged.  (Occurrences after the first are kept, as the
counterexample shows.) -/
theorem message_substitution_first_occurrence :
    (∀ pre suf : List Char,
      (∀ i, i < pre.length → MARKER.isPrefixOf ((pre ++ MARKER ++ suf).drop i) = false) →
      transformMessage (pre ++ MARKER ++ suf) = pre ++ REPLACEMENT ++ suf)
    ∧ (∀ m : List Char, hasOccurrence MARKER m = false → transformMessage m = m) :=
  ⟨fun pre suf h => replaceFirst_first_occurrence MARKER REPLACEMENT pre suf h,
   fun m h => replaceFirst_of_no_occurrence MARKER REPLACEMENT m h⟩

/-- Witness for C3's theorem at concrete messages. -/
theorem message_substitution_first_occurrence_check :
    transformMessage (("x ").toList ++ MARKER ++ (" y").toList)
      = ("x ").toList ++ REPLACEMENT ++ (" y").toList
    ∧ transformMessage (("hello").toList) = ("hello").toList :=
  ⟨message_substitution_first_occurrence.1 (("x ").toList) ((" y").toList) (by decide),
   message_substitution_first_occurrence.2 (("hello").toList) (by decide)⟩

/-!
Lemmas about the 32-bit truncation.
-/

/-- toInt32 is the identity on the signed 32-bit range of non-negative
values. -/
theorem toInt32_of_in_range (x : Int) (h0 : 0 ≤ x) (h1 : x < 2147483648) :
    toInt32 x = x := by
  unfold toInt32
  omega

/-- toInt32 wraps values of the next 2^31 block to negative values. -/
theorem toInt32_wrap (x : Int) (h0 : 2147483648 ≤ x) (h1 : x < 4294967296) :
    toInt32 x = x - 4294967296 := by
  unfold toInt32
  omega

/-- toInt32 never reaches 2^31. -/
theorem toInt32_lt (x : Int) : toInt32 x < 2147483648 := by
  unfold toInt32
  omega

/-- C10 (amended): operateTime truncates the 6-month-shifted instant
with 32-bit signed semantics — below 2^31 seconds the result is the
true shifted Unix-seconds value; in [2^31, 2^32) it wraps to the
negative value s - 2^32; for any shifted value at or beyond 2^31 the
result differs from the true value (though it is not always negative,
see the counterexample). -/
theorem operateTime_int32_truncation (t : Int) :
    (0 ≤ addMonthsUnix 6 t → addMonthsUnix 6 t < 2147483648 →
      operateTime t = addMonthsUnix 6 t)
    ∧ (2147483648 ≤ addMonthsUnix 6 t → addMonthsUnix 6 t < 4294967296 →
      operateTime t = addMonthsUnix 6 t - 4294967296 ∧ operateTime t < 0)
    ∧ (2147483648 ≤ addMonthsUnix 6 t → operateTime t ≠ addMonthsUnix 6 t) := by
  unfold operateTime
  refine ⟨fun h0 h1 => toInt32_of_in_range _ h0 h1,
          fun h0 h1 => ⟨toInt32_wrap _ h0 h1, ?_⟩,
          fun h0 => ?_⟩
  · have := toInt32_wrap (addMonthsUnix 6 t) h0 h1
    omega
  · have := toInt32_lt (addMonthsUnix 6 t)
    omega

/-- C10 counterexample: for the instant 2105-08-07T06:28:16Z the
6-month-shifted value is exactly 2^32 seconds (at and beyond 2^31), yet
operateTime yields 0 — an incorrect but non-negative result, so the
wrap does not always produce a negative value. -/
theorem operateTime_wrap_not_negative_cex :
    2147483648 ≤ addMonthsUnix 6 4279069696
    ∧ operateTime 4279069696 = 0
    ∧ ¬ (operateTime 4279069696 < 0) :=
  ⟨by decide, by decide, by decide⟩

/-- Witness for C10's theorem: an in-range instant (2023-01-15) is
truncation-free; a January-2038 instant wraps negative; the 2105
instant shows the inequality conclusion. -/
theorem operateTime_int32_truncation_check :
    operateTime 1673776800 = addMonthsUnix 6 1673776800
    ∧ operateTime 2146483648 = addMonthsUnix 6 2146483648 - 4294967296
    ∧ operateTime 2146483648 < 0
    ∧ operateTime 4279069696 ≠ addMonthsUnix 6 4279069696 :=
  ⟨(operateTime_int32_truncation 1673776800).1 (by decide) (by decide),
   ((operateTime_int32_truncation 2146483648).2.1 (by decide) (by decide)).1,
   ((operateTime_int32_truncation 2146483648).2.1 (by decide) (by decide)).2,
   (operateTime_int32_truncation 4279069696).2.2 (by decide)⟩

/-- C4 counterexample: for a commit instant of 2038-01-07T13:27:28Z
(before the 2038 boundary, but whose 6-month shift crosses it) the
computed changeTime instant is a negative wrapped value, not the
instant 6 calendar months later. -/
theorem time_shift_overflow_cex :
    computedTime true 2146483648 ≠ addMonthsUnix 6 2146483648
    ∧ computedTime true 2146483648 = -2132845248
    ∧ addMonthsUnix 6 2146483648 = 2162122048 :=
  ⟨by decide, by decide, by decide⟩

/-- C4 (amended): for every commit whose author and committer instants
have 6-month-shifted values inside [0, 2^31) seconds, changeTime=true
rewrites each instant (independently) to exactly the instant 6 calendar
months later under month-length-aware calendar arithmetic
(addMonthsUnix, which clamps the day of month to the target month's
length), and changeTime=false copies each instant unchanged; outside
that range the 32-bit truncation wraps the result (see the
counterexample and C10). -/
theorem time_shift_six_calendar_months (c : Commit)
    (ha0 : 0 ≤ addMonthsUnix 6 c.author.time)
    (ha1 : addMonthsUnix 6 c.author.time < 2147483648)
    (hc0 : 0 ≤ addMonthsUnix 6 c.committer.time)
    (hc1 : addMonthsUnix 6 c.committer.time < 2147483648) :
    computedTime true c.author.time = addMonthsUnix 6 c.author.time
    ∧ computedTime true c.committer.time = addMonthsUnix 6 c.committer.time
    ∧ computedTime false c.author.time = c.author.time
    ∧ computedTime false c.committer.time = c.committer.time := by
  refine ⟨?_, ?_, rfl, rfl⟩
  · exact toInt32_of_in_range _ ha0 ha1
  · exact toInt32_of_in_range _ hc0 hc1

/-- Witness for C4's theorem at the spec's example commit: the author
instant 2023-01-15T10:00:00Z maps to 2023-07-15T10:00:00Z under
changeTime and is kept without changeTime. -/
theorem time_shift_six_calendar_months_check :
    addMonthsUnix 6 1673776800 = 1689415200
    ∧ computedTime true w4C.author.time = addMonthsUnix 6 w4C.author.time
    ∧ computedTime false w4C.committer.time = w4C.committer.time :=
  ⟨by decide,
   (time_shift_six_calendar_months w4C (by decide) (by decide) (by decide) (by decide)).1,
   (time_shift_six_calendar_months w4C (by decide) (by decide) (by decide) (by decide)).2.2.2⟩

/-- C7: the origin-fallback is unreachable.  In a repository where the
source branch name does not resolve but its remote-tracking counterpart
does, the run aborts at the initial unguarded resolution (the
console.log of the branch) before the guarded fallback code can try
origin/<branch>, contradicting the claimed fallback behaviour (the
fallback resolution would have succeeded, as the second conjunct
shows). -/
theorem fallback_resolution_unreachable :
    resolveRef [("origin/master", "c0")] "master" = none
    ∧ resolveRef [("origin/master", "c0")] ("origin/" ++ "master") = some ("c0")
    ∧ startRun [("origin/master", "c0")] "master" = Except.error () :=
  ⟨rfl, rfl, rfl⟩

/-!
Lemmas about the branch store.
-/

/-- Filtering for a name after filtering it away yields nothing. -/
theorem filter_keep_drop (l : List (String × Nat)) (n : String) :
    (l.filter (fun p => !(decide (p.1 = n)))).filter (fun p => decide (p.1 = n)) = [] := by
  induction l with
  | nil => rfl
  | cons x xs ih => by_cases hx : x.1 = n <;> simp [List.filter_cons, hx, ih]

/-- Filtering a name away twice is the same as once. -/
theorem filter_ne_idem (l : List (String × Nat)) (n : String) :
    (l.filter (fun p => !(decide (p.1 = n)))).filter (fun p => !(decide (p.1 = n)))
      = l.filter (fun p => !(decide (p.1 = n))) := by
  induction l with
  | nil => rfl
  | cons x xs ih => by_cases hx : x.1 = n <;> simp [List.filter_cons, hx, ih]

/-- After deleting a branch reference, no pointer with that name exists. -/
theorem branchExists_after_delete (s : RepoState) (n : String) :
    branchExists (deleteBranchRef s n) n = false := by
  unfold branchExists deleteBranchRef
  show (s.branches.filter (fun p => !(decide (p.1 = n)))).any (fun p => decide (p.1 = n)) = false
  induction s.branches with
  | nil => rfl
  | cons x xs ih => by_cases hx : x.1 = n <;> simp [List.filter_cons, hx, ih]

/-- Closed form of branch materialization: it always succeeds, the
destination pointer is written with the requested target, any stale
pointer of the same name is gone, and the branch is checked out. -/
theorem materializeBranch_spec (s : RepoState) (b : String) (t : Nat) :
    materializeBranch s b t =
      some { branches := (newBranchNameOf b, t) ::
               s.branches.filter (fun p => !(decide (p.1 = newBranchNameOf b))),
             head := some (newBranchNameOf b) } := by
  unfold materializeBranch
  by_cases hc : (branchExists s (newBranchNameOf b)
      && decide (s.head = some (newBranchNameOf b))) = true
  · have h1 : createBranchForce s (newBranchNameOf b) t = none := by
      unfold createBranchForce
      rw [if_pos hc]
    have h2 : createBranchForce (deleteBranchRef s (newBranchNameOf b)) (newBranchNameOf b) t
        = some { branches := (newBranchNameOf b, t) ::
                   s.branches.filter (fun p => !(decide (p.1 = newBranchNameOf b))),
                 head := s.head } := by
      unfold createBranchForce
      rw [branchExists_after_delete]
      simp only [Bool.false_and, Bool.false_eq_true, if_false]
      unfold deleteBranchRef
      simp [filter_ne_idem]
    rw [h1, h2]
  · have h1 : createBranchForce s (newBranchNameOf b) t
        = some { branches := (newBranchNameOf b, t) ::
                   s.branches.filter (fun p => !(decide (p.1 = newBranchNameOf b))),
                 head := s.head } := by
      unfold createBranchForce
      rw [if_neg hc]
    rw [h1]

/-- C8: branch materialization is idempotent across runs — the
destination name is recommited/ plus the source branch name; a first
materialization succeeds and leaves exactly one pointer with that name
(checked out); a second materialization against the resulting state
(where the leftover pointer is the checked-out branch, forcing the
delete-and-retry path) succeeds again and still leaves exactly one
pointer with that name. -/
theorem branch_materialization_idempotent (s : RepoState) (b : String) (t : Nat) :
    newBranchNameOf b = "recommited/" ++ b
    ∧ ∃ s1 s2, materializeBranch s b t = some s1
        ∧ (s1.branches.filter (fun p => decide (p.1 = newBranchNameOf b))).length = 1
        ∧ s1.head = some (newBranchNameOf b)
        ∧ materializeBranch s1 b t = some s2
        ∧ (s2.branches.filter (fun p => decide (p.1 = newBranchNameOf b))).length = 1
        ∧ s2.head = some (newBranchNameOf b) := by
  refine ⟨rfl, _, _, materializeBranch_spec s b t, ?_, rfl,
    materializeBranch_spec _ b t, ?_, rfl⟩
  · simp [List.filter_cons, filter_keep_drop]
  · simp [List.filter_cons, filter_keep_drop, filter_ne_idem]

/-!
Lemmas about random selection.
-/

/-- On a non-empty array a draw in [0, 1) selects an element. -/
theorem randomSelect_of_pos {α : Type} (arr : List α) (r : ℚ)
    (h1 : r < 1) (hp : 0 < arr.length) :
    ∃ a, randomSelect arr r = some a ∧ a ∈ arr := by
  have hl : (0 : ℚ) < (arr.length : ℚ) := by exact_mod_cast hp
  have hmul : r * (arr.length : ℚ) < (arr.length : ℚ) := by
    calc r * (arr.length : ℚ) < 1 * (arr.length : ℚ) := mul_lt_mul_of_pos_right h1 hl
      _ = (arr.length : ℚ) := one_mul _
  have hfl : Int.floor (r * (arr.length : ℚ)) < (arr.length : Int) := by
    rw [Int.floor_lt]
    push_cast
    exact hmul
  have hidx : (Int.floor (r * (arr.length : ℚ))).toNat < arr.length := by omega
  refine ⟨arr[(Int.floor (r * (arr.length : ℚ))).toNat], ?_, ?_⟩
  · unfold randomSelect
    exact List.getElem?_eq_getElem hidx
  · exact List.getElem_mem hidx

/-- A successful selection is a member of the array. -/
theorem randomSelect_mem {α : Type} {arr : List α} {r : ℚ} {a : α}
    (h : randomSelect arr r = some a) : a ∈ arr := by
  unfold randomSelect at h
  exact List.getElem?_mem h

/-- C9 counterexample: on a pool with only a backend entry, asking for a
frontend author selects from the empty filtered subset and yields an
undefined selection (none) — there is no fallback, contradicting the
claim that selection always yields a defined pool entry. -/
theorem author_selection_empty_subset_cex :
    getRandomAuthor [⟨"A", "a@example.com", Role.backend⟩] (some Role.frontend) 0 = none :=
  rfl

/-- C9 (amended): author selection yields a defined member (with the
requested role) exactly when the selected sub-pool is non-empty; when
the role-filtered subset is empty the selection is undefined (none) —
the implementation has no fallback, and the chain step turns the
subsequent field access into the selectionUndefined failure. -/
theorem author_selection_totality (pool : List AuthorEntry) (ro : Role) (r : ℚ)
    (_h0 : 0 ≤ r) (h1 : r < 1) :
    (0 < (pool.filter (fun a => decide (a.role = ro))).length →
      ∃ a, getRandomAuthor pool (some ro) r = some a ∧ a ∈ pool ∧ a.role = ro)
    ∧ ((pool.filter (fun a => decide (a.role = ro))).length = 0 →
      getRandomAuthor pool (some ro) r = none)
    ∧ (0 < pool.length →
      ∃ a, getRandomAuthor pool none r = some a ∧ a ∈ pool) := by
  refine ⟨fun hp => ?_, fun hz => ?_, fun hp => ?_⟩
  · obtain ⟨a, ha, hmem⟩ := randomSelect_of_pos (pool.filter (fun a => decide (a.role = ro))) r h1 hp
    rw [List.mem_filter] at hmem
    exact ⟨a, ha, hmem.1, by simpa using hmem.2⟩
  · have hnil : pool.filter (fun a => decide (a.role = ro)) = [] := List.length_eq_zero.mp hz
    show randomSelect (pool.filter (fun a => decide (a.role = ro))) r = none
    rw [hnil]
    rfl
  · exact randomSelect_of_pos pool r h1 hp

/-- Witness for C9's theorem: a frontend-only pool asked for a backend
author yields an undefined selection. -/
theorem author_selection_totality_check :
    (0 : ℚ) ≤ 0 ∧ (0 : ℚ) < 1
    ∧ getRandomAuthor [⟨"F", "f@example.com", Role.frontend⟩] (some Role.backend) 0 = none :=
  ⟨le_refl 0, by norm_num,
   (author_selection_totality [⟨"F", "f@example.com", Role.frontend⟩] Role.backend 0
     (le_refl 0) (by norm_num)).2.1 (by decide)⟩

/-- C6: role inference counts changed-file paths containing the backend
label against paths containing the frontend label (containment anywhere
in the path); a strict backend majority draws from backend-role pool
entries, a strict frontend majority from frontend-role entries, and a
tie (including zero-zero) draws from the entire pool regardless of
role. -/
theorem role_majority_rule (pool : List AuthorEntry) (r : ℚ) (files : List (List Char)) :
    (backendChangesAmount files > frontendChangesAmount files →
      determineAuthorFromFiles pool r files = getRandomAuthor pool (some Role.backend) r
      ∧ ∀ a, determineAuthorFromFiles pool r files = some a → a ∈ pool ∧ a.role = Role.backend)
    ∧ (frontendChangesAmount files > backendChangesAmount files →
      determineAuthorFromFiles pool r files = getRandomAuthor pool (some Role.frontend) r
      ∧ ∀ a, determineAuthorFromFiles pool r files = some a → a ∈ pool ∧ a.role = Role.frontend)
    ∧ (backendChangesAmount files = frontendChangesAmount files →
      determineAuthorFromFiles pool r files = getRandomAuthor pool none r
      ∧ ∀ a, determineAuthorFromFiles pool r files = some a → a ∈ pool) := by
  refine ⟨fun hb => ?_, fun hf => ?_, fun he => ?_⟩
  · have heq : determineAuthorFromFiles pool r files = getRandomAuthor pool (some Role.backend) r := by
      unfold determineAuthorFromFiles
      rw [if_pos hb]
    refine ⟨heq, fun a ha => ?_⟩
    rw [heq] at ha
    have ha2 : randomSelect (pool.filter (fun x => decide (x.role = Role.backend))) r = some a := ha
    have hmem := randomSelect_mem ha2
    rw [List.mem_filter] at hmem
    exact ⟨hmem.1, by simpa using hmem.2⟩
  · have heq : determineAuthorFromFiles pool r files = getRandomAuthor pool (some Role.frontend) r := by
      unfold determineAuthorFromFiles
      rw [if_neg (by omega), if_pos hf]
    refine ⟨heq, fun a ha => ?_⟩
    rw [heq] at ha
    have ha2 : randomSelect (pool.filter (fun x => decide (x.role = Role.frontend))) r = some a := ha
    have hmem := randomSelect_mem ha2
    rw [List.mem_filter] at hmem
    exact ⟨hmem.1, by simpa using hmem.2⟩
  · have heq : determineAuthorFromFiles pool r files = getRandomAuthor pool none r := by
      unfold determineAuthorFromFiles
      rw [if_neg (by omega), if_neg (by omega)]
    refine ⟨heq, fun a ha => ?_⟩
    rw [heq] at ha
    exact randomSelect_mem ha
  
/-- Witness for C6's theorem: three backend-labelled paths against one
frontend-labelled path route the selection to the backend sub-pool. -/
theorem role_majority_rule_check :
    backendChangesAmount w6Files > frontendChangesAmount w6Files
    ∧ determineAuthorFromFiles w6Pool 0 w6Files = getRandomAuthor w6Pool (some Role.backend) 0 :=
  ⟨by decide, ((role_majority_rule w6Pool 0 w6Files).1 (by decide)).1⟩

/-!
Lemmas about the chain fold.
-/

/-- The parent default after a cons shifts to the head's id. -/
theorem lastId_cons (p : String) (a : Created) (t : List Created) :
    lastId p (a :: t) = lastId a.id t := by
  cases t with
  | nil => rfl
  | cons b t2 =>
    unfold lastId tail
    rw [List.getLast?_cons_cons]
    cases hg : (b :: t2).getLast? with
    | none => simp at hg
    | some x => rfl

/-- Appending one record extends a linked chain exactly when its parent
is the chain's current tip. -/
theorem linkedFrom_concat (p : String) (l : List Created) (r : Created) :
    linkedFrom p (l ++ [r]) = (linkedFrom p l && decide (r.parentId = lastId p l)) := by
  induction l generalizing p with
  | nil => simp [linkedFrom, lastId, tail]
  | cons a t ih =>
    simp only [List.cons_append, linkedFrom, List.append_eq]
    rw [ih a.id, lastId_cons, Bool.and_assoc]

/-- A chain step whose prelude succeeds but whose store operations fail
returns the accumulator unchanged (the catch branch). -/
theorem chainStep_of_createFail (P : ChainParams) (acc : List Created) (c : Commit)
    (hp : preludeOk P c = true) (hf : P.createOk c = false) :
    chainStep P acc c = Except.ok acc := by
  unfold preludeOk at hp
  unfold chainStep determineAuthorForCommit getCommitFiles
  cases hd : c.diffFiles with
  | none => rw [hd] at hp; exact absurd hp (by simp)
  | some fs =>
    rw [hd] at hp
    simp only [Except.map]
    have hm : ∃ sigs, makeSignatures P.keepAuthor P.changeTime
        (determineAuthorFromFiles P.pool (P.rand c) fs) c = some sigs := by
      unfold makeSignatures
      cases hk : P.keepAuthor with
      | true => exact ⟨(c.author, c.committer), rfl⟩
      | false =>
        rw [hk] at hp
        simp only [Bool.false_or] at hp
        cases ha : determineAuthorFromFiles P.pool (P.rand c) fs with
        | none => rw [ha] at hp; simp [Option.isSome] at hp
        | some a => exact ⟨_, rfl⟩
    obtain ⟨sigs, hsig⟩ := hm
    rw [hsig]
    simp only []
    simp [hf]

/-- A chain step whose prelude succeeds always returns ok (failures of
the store are caught by the try block). -/
theorem chainStep_progress {P : ChainParams} {c : Commit}
    (hp : preludeOk P c = true) (acc : List Created) :
    ∃ acc2, chainStep P acc c = Except.ok acc2 := by
  unfold preludeOk at hp
  unfold chainStep determineAuthorForCommit getCommitFiles
  cases hd : c.diffFiles with
  | none => rw [hd] at hp; exact absurd hp (by simp)
  | some fs =>
    rw [hd] at hp
    simp only [Except.map]
    have hm : ∃ sigs, makeSignatures P.keepAuthor P.changeTime
        (determineAuthorFromFiles P.pool (P.rand c) fs) c = some sigs := by
      unfold makeSignatures
      cases hk : P.keepAuthor with
      | true => exact ⟨(c.author, c.committer), rfl⟩
      | false =>
        rw [hk] at hp
        simp only [Bool.false_or] at hp
        cases ha : determineAuthorFromFiles P.pool (P.rand c) fs with
        | none => rw [ha] at hp; simp [Option.isSome] at hp
        | some a => exact ⟨_, rfl⟩
    obtain ⟨sigs, hsig⟩ := hm
    by_cases hco : P.createOk c = true
    · exact ⟨acc ++ [{ id := P.newIdOf c.id, parentId := lastId P.seedId acc, tree := c.tree,
                       message := transformMessage c.message, author := sigs.1,
                       committer := sigs.2, origId := c.id }], by rw [hsig]; simp [hco]⟩
    · exact ⟨acc, by rw [hsig]; simp [hco]⟩

/-- A successful chain step preserves chain linkage from the seed. -/
theorem chainStep_linked {P : ChainParams} {acc : List Created} {c : Commit}
    {acc2 : List Created} (h : chainStep P acc c = Except.ok acc2)
    (hl : linkedFrom P.seedId acc = true) : linkedFrom P.seedId acc2 = true := by
  unfold chainStep at h
  split at h
  · exact Except.noConfusion h
  · split at h
    · exact Except.noConfusion h
    · split at h
      · have h2 := Except.ok.inj h
        subst h2
        rw [linkedFrom_concat]
        simp [hl]
      · have h2 := Except.ok.inj h
        subst h2
        exact hl

/-- Every record after a successful chain step either was there before
or is the record of this commit, created only when the store
succeeded. -/
theorem chainStep_origins {P : ChainParams} {acc : List Created} {c : Commit}
    {acc2 : List Created} (h : chainStep P acc c = Except.ok acc2) :
    ∀ rec, rec ∈ acc2 → rec ∈ acc ∨
      (P.createOk c = true ∧ rec.origId = c.id ∧ rec.id = P.newIdOf c.id) := by
  unfold chainStep at h
  split at h
  · exact Except.noConfusion h
  · split at h
    · exact Except.noConfusion h
    · split at h
      · rename_i hco
        have h2 := Except.ok.inj h
        subst h2
        intro rec hrec
        rw [List.mem_append] at hrec
        cases hrec with
        | inl hin => exact Or.inl hin
        | inr hin =>
          rw [List.mem_singleton] at hin
          subst hin
          exact Or.inr ⟨hco, rfl, rfl⟩
      · have h2 := Except.ok.inj h
        subst h2
        intro rec hrec
        exact Or.inl hrec

/-- The fold over an appended list runs the prefix first and continues
from its result. -/
theorem runChain_append (P : ChainParams) (xs ys : List Commit) (acc : List Created) :
    runChain P acc (xs ++ ys) =
      match runChain P acc xs with
      | Except.error e => Except.error e
      | Except.ok a => runChain P a ys := by
  induction xs generalizing acc with
  | nil => rfl
  | cons x xs ih =>
    simp only [List.cons_append, runChain]
    cases h : chainStep P acc x with
    | error e => rfl
    | ok a2 => exact ih a2

/-- A successful fold preserves chain linkage from the seed. -/
theorem runChain_linked (P : ChainParams) (cs : List Commit) :
    ∀ acc res, runChain P acc cs = Except.ok res →
      linkedFrom P.seedId acc = true → linkedFrom P.seedId res = true := by
  induction cs with
  | nil =>
    intro acc res h hl
    have h2 := Except.ok.inj h
    subst h2
    exact hl
  | cons c cs ih =>
    intro acc res h hl
    cases hc : chainStep P acc c with
    | error e =>
      simp only [runChain, hc] at h
      exact Except.noConfusion h
    | ok a2 =>
      simp only [runChain, hc] at h
      exact ih a2 res h (chainStep_linked hc hl)

/-- Every record of a successful fold's output either was in the
accumulator or originates from a commit of the list whose store
operations succeeded. -/
theorem runChain_origins (P : ChainParams) (cs : List Commit) :
    ∀ acc res, runChain P acc cs = Except.ok res →
      ∀ rec, rec ∈ res → rec ∈ acc ∨
        ∃ x, x ∈ cs ∧ P.createOk x = true
          ∧ rec.origId = x.id ∧ rec.id = P.newIdOf x.id := by
  induction cs with
  | nil =>
    intro acc res h rec hrec
    have h2 := Except.ok.inj h
    subst h2
    exact Or.inl hrec
  | cons c cs ih =>
    intro acc res h rec hrec
    cases hc : chainStep P acc c with
    | error e =>
      simp only [runChain, hc] at h
      exact Except.noConfusion h
    | ok a2 =>
      simp only [runChain, hc] at h
      cases ih a2 res h rec hrec with
      | inr hex =>
        obtain ⟨x, hx, hrest⟩ := hex
        exact Or.inr ⟨x, List.mem_cons_of_mem c hx, hrest⟩
      | inl hin =>
        cases chainStep_origins hc rec hin with
        | inl h3 => exact Or.inl h3
        | inr h3 => exact Or.inr ⟨c, List.mem_cons_self c cs, h3⟩

/-- When every commit's prelude succeeds, the fold succeeds. -/
theorem runChain_progress (P : ChainParams) (cs : List Commit) :
    ∀ acc, (∀ x, x ∈ cs → preludeOk P x = true) →
      ∃ res, runChain P acc cs = Except.ok res := by
  induction cs with
  | nil => intro acc _; exact ⟨acc, rfl⟩
  | cons c cs ih =>
    intro acc hp
    obtain ⟨a2, ha2⟩ := chainStep_progress (hp c (List.mem_cons_self c cs)) acc
    obtain ⟨res, hres⟩ := ih a2 (fun x hx => hp x (List.mem_cons_of_mem c hx))
    refine ⟨res, ?_⟩
    simp only [runChain, ha2]
    exact hres

/-- C1: failure isolation in the chain.  When every commit of the
ordered sequence reaches its try block and the store fails exactly for
commit c, then (i) the failing step leaves any accumulated record list
unchanged, (ii) the whole fold equals the fold over the sequence with c
removed — the later commits are still attempted and produce the same
records, (iii) any successful output is one linked chain hanging from
the seed branch tip (each record's parent is the previous record's new
commit, the first record's parent the seed), and every record
originates from a commit other than c whose creation succeeded — the
failed commit appears nowhere in the rewritten chain. -/
theorem chain_failure_isolation (P : ChainParams) (l1 l2 : List Commit) (c : Commit)
    (hpre : ∀ x, x ∈ l1 ++ c :: l2 → preludeOk P x = true)
    (hfail : P.createOk c = false) :
    (∀ acc, chainStep P acc c = Except.ok acc)
    ∧ runChain P [] (l1 ++ c :: l2) = runChain P [] (l1 ++ l2)
    ∧ (∀ res, runChain P [] (l1 ++ c :: l2) = Except.ok res →
        linkedFrom P.seedId res = true
        ∧ ∀ rec, rec ∈ res → ∃ x, x ∈ l1 ++ l2 ∧ P.createOk x = true
            ∧ rec.origId = x.id ∧ rec.id = P.newIdOf x.id) := by
  have hpc : preludeOk P c = true := hpre c (by simp)
  refine ⟨fun acc => chainStep_of_createFail P acc c hpc hfail, ?_, ?_⟩
  · rw [runChain_append, runChain_append]
    cases h : runChain P [] l1 with
    | error e => rfl
    | ok a =>
      simp only [runChain, chainStep_of_createFail P a c hpc hfail]
  · intro res hres
    constructor
    · exact runChain_linked P (l1 ++ c :: l2) [] res hres rfl
    · intro rec hrec
      cases runChain_origins P (l1 ++ c :: l2) [] res hres rec hrec with
      | inl h0 => exact absurd h0 (List.not_mem_nil rec)
      | inr hex =>
        obtain ⟨x, hx, hco, ho1, ho2⟩ := hex
        refine ⟨x, ?_, hco, ho1, ho2⟩
        rw [List.mem_append] at hx
        rw [List.mem_append]
        cases hx with
        | inl h1 => exact Or.inl h1
        | inr h1 =>
          rw [List.mem_cons] at h1
          cases h1 with
          | inl hxc =>
            subst hxc
            rw [hco] at hfail
            exact Bool.noConfusion hfail
          | inr h2 => exact Or.inr h2

/-- Witness for C1's theorem: with the store failing exactly on commit
b, the fold over a, b, c equals the fold over a, c. -/
theorem chain_failure_isolation_check :
    (∀ x, x ∈ [w1A, w1B, w1C] → preludeOk w1P x = true)
    ∧ w1P.createOk w1B = false
    ∧ runChain w1P [] [w1A, w1B, w1C] = runChain w1P [] [w1A, w1C] :=
  ⟨by decide, by decide,
   (chain_failure_isolation w1P [w1A] [w1C] w1B (by decide) (by decide)).2.1⟩

/-- C2 counterexample: a diff-computation failure is not caught — on a
sequence of a diff-failing commit followed by a healthy one, the fold
rejects with the diff error instead of dropping the failing commit and
continuing (the healthy commit alone succeeds, as the second conjunct
shows, so the abort is caused by the failing commit). -/
theorem chain_diff_failure_not_caught_cex :
    runChain w2P [] [w2Bad, w2Good] = Except.error (ChainErr.diffUnavailable "bad")
    ∧ runChain w2P [] [w2Good] =
        Except.ok [{ id := "new-good", parentId := "seed", tree := 5,
                     message := transformMessage (("msg good").toList),
                     author := wSig, committer := wSig, origId := "good" }] :=
  ⟨rfl, rfl⟩

/-- C2 (amended): a diff-computation failure for a non-seed commit is
not caught individually — the rejection escapes the per-commit
try/catch (the author-determination step runs before it), every later
step re-throws it, and the whole chain fold aborts with the diff error;
the commits after the failing one are never attempted. -/
theorem chain_diff_failure_aborts (P : ChainParams) (l1 l2 : List Commit) (c : Commit)
    (hpre : ∀ x, x ∈ l1 → preludeOk P x = true)
    (hdiff : c.diffFiles = none) :
    runChain P [] (l1 ++ c :: l2) = Except.error (ChainErr.diffUnavailable c.id) := by
  rw [runChain_append]
  obtain ⟨a, ha⟩ := runChain_progress P l1 [] hpre
  rw [ha]
  have hstep : chainStep P a c = Except.error (ChainErr.diffUnavailable c.id) := by
    unfold chainStep determineAuthorForCommit getCommitFiles
    rw [hdiff]
    rfl
  simp only [runChain, hstep]

/-- Witness for C2's theorem: a healthy commit, then a diff-failing
commit, then another commit; the fold errors with the diff failure. -/
theorem chain_diff_failure_aborts_check :
    (∀ x, x ∈ [w1A] → preludeOk w2P x = true)
    ∧ w2Bad.diffFiles = none
    ∧ runChain w2P [] [w1A, w2Bad, w1C] = Except.error (ChainErr.diffUnavailable "bad") :=
  ⟨by decide, rfl,
   chain_diff_failure_aborts w2P [w1A] [w1C] w2Bad (by decide) rfl⟩

/-- C5: keepAuthor invariance.  With keepAuthor set, the signature
construction returns the original author and committer signatures
verbatim (identity, instant and UTC offset), whatever the changeTime
flag and the chosen pool author; consequently a successful chain step
writes the commit with exactly the original signatures. -/
theorem keepAuthor_invariance (P : ChainParams) (acc : List Created) (c : Commit)
    (a : Option AuthorEntry)
    (hk : P.keepAuthor = true) (hd : c.diffFiles.isSome = true) (hc : P.createOk c = true) :
    makeSignatures true P.changeTime a c = some (c.author, c.committer)
    ∧ chainStep P acc c = Except.ok (acc ++
        [{ id := P.newIdOf c.id, parentId := lastId P.seedId acc, tree := c.tree,
           message := transformMessage c.message,
           author := c.author, committer := c.committer, origId := c.id }]) := by
  refine ⟨rfl, ?_⟩
  unfold chainStep determineAuthorForCommit getCommitFiles
  cases hdf : c.diffFiles with
  | none => rw [hdf] at hd; exact absurd hd (by simp)
  | some fs =>
    simp only [Except.map]
    rw [hk]
    simp [makeSignatures, hc]

/-- Witness for C5's theorem: a keepAuthor run with changeTime set
still writes the original signatures. -/
theorem keepAuthor_invariance_check :
    w5P.keepAuthor = true ∧ w5P.changeTime = true ∧ w5P.createOk w5A = true
    ∧ chainStep w5P [] w5A = Except.ok
        [{ id := w5P.newIdOf w5A.id, parentId := lastId w5P.seedId [], tree := w5A.tree,
           message := transformMessage w5A.message,
           author := w5A.author, committer := w5A.committer, origId := w5A.id }] :=
  ⟨rfl, rfl, rfl, by
    have h := (keepAuthor_invariance w5P [] w5A none rfl rfl rfl).2
    simpa using h⟩
